import Mathlib

/-!
Verification of the GoogleTrends-DataCollector core (`src/TrendsCollector.py`)
against its natural-language specification.

The Python source is shallowly embedded as follows.

* A pandas `DataFrame` (a Magnitude Profile) is a list of named columns, each
  column a time-indexed list of rational values (`float`s are abstracted as
  rationals; `NaN` never arises in the fragments the claims are about).
* A Python `frozenset[str]` is a `Finset String`; building it from a list is
  `pyFrozenset`.
* `PyTrendsWrapper` is a state (string-keyed cache plus `call_count`); the
  external pytrends service is a deterministic function
  `oracle : Finset String → DataFrame` (the claims under study fix one profile
  per Query Key), and `yaml` serialization round-trips, so it is the identity.
* `eliminate_empty`'s `while` loop over a deque is embedded with an explicit
  fuel parameter: `none` means the fuel was exhausted before the queue
  emptied, so termination statements become `∃ fuel, (… ).isSome`.
* `optimized_sort` compares items with `is` (Python object identity), not
  `==`.  An `Obj` is therefore a pair of an object identity (a `ℕ`, standing
  for the CPython object id) and the string value; `frozenset`/`data[...]`
  see only the value, `is` compares identities.
-/

open List

/-- A pandas Series: the time-indexed rational values of one column. -/
abbrev Series := List ℚ

/-- `Series.max()`: pandas maximum of a column (profiles carry values in
`[0,100]`, and the embedded code only reads the max of nonempty columns, so
`0` for the empty column is a harmless total default). -/
def seriesMax : Series → ℚ
  | [] => 0
  | x :: xs => xs.foldl max x

/-- A pandas `DataFrame`: named columns (`interest_over_time` returns one
column per requested keyword). -/
structure DataFrame where
  cols : List (String × Series)
deriving DecidableEq

/-- `df[name]`: column lookup. Missing columns default to the empty series
(the code only looks up columns of requested keywords, which a well-formed
profile carries). -/
def DataFrame.getCol (d : DataFrame) (name : String) : Series :=
  (d.cols.lookup name).getD []

/-- `df.empty`: no rows (pandas frames are rectangular, so "some axis has
length 0" is "every column is empty", which also covers "no columns"). -/
def DataFrame.isEmpty (d : DataFrame) : Bool :=
  d.cols.all fun c => c.2.isEmpty

/-- `df.multiply(x)`: scalar multiplication of every value of the frame. -/
def DataFrame.multiply (d : DataFrame) (x : ℚ) : DataFrame :=
  ⟨d.cols.map fun c => (c.1, c.2.map (· * x))⟩

/-- `frozenset(l)` for a list of strings: the underlying value set. -/
def pyFrozenset (l : List String) : Finset String :=
  l.toFinset

/-! ## PyTrendsWrapper: the oracle client with its redis cache -/

/-- The mutable state of a `PyTrendsWrapper`: the redis cache (a string-keyed
map, most recent write first) and the `call_count` counter of external
pytrends calls. -/
structure WState where
  cache : List (String × DataFrame)
  call_count : ℕ
deriving DecidableEq

/-- The cache key built by `PyTrendsWrapper.get` from a Query Key:
`key_prefix + "Keys: [" + ", ".join(sorted(key)) + "]"`.  `keyPref` is the
run's `key_prefix` (a function of the request kwargs, fixed for a run). -/
def cacheKey (keyPref : String) (key : Finset String) : String :=
  keyPref ++ "Keys: [" ++ String.intercalate ", " (key.sort (· ≤ ·)) ++ "]"

/-- `PyTrendsWrapper.get`: return the cached profile for the cache key,
first resolving the key through the external oracle — storing the result and
incrementing `call_count` — when the cache key is absent. -/
def PyTrendsWrapper.get (keyPref : String) (oracle : Finset String → DataFrame)
    (s : WState) (key : Finset String) : DataFrame × WState :=
  let ck := cacheKey keyPref key
  let s' : WState :=
    if (s.cache.lookup ck).isSome then s
    else ⟨(ck, oracle key) :: s.cache, s.call_count + 1⟩
  ((s'.cache.lookup ck).getD ⟨[]⟩, s')

/-! ## eliminate_empty

The loop pops up to 5 items from the front of the deque, resolves the batch's
frozenset, sends the whole batch to `empty` when the profile is absent or
empty, and otherwise accepts items with a nonzero column max into `output`
and re-appends zero-max items to the back of the deque.  The `while` loop is
embedded with fuel: one unit per iteration, `none` on exhaustion with a
nonempty queue. -/

/-- One run of `eliminate_empty`'s `while input_deque:` loop, from the state
`(queue, output, empty)`, with the given iteration fuel. -/
def elimLoop (oracle : Finset String → Option DataFrame) :
    ℕ → List String → List String → List String →
    Option (List String × List String)
  | 0, q, output, empty => if q = [] then some (output, empty) else none
  | fuel + 1, q, output, empty =>
    if q = [] then some (output, empty)
    else
      let cur_list := q.take 5
      let rest := q.drop 5
      match oracle (pyFrozenset cur_list) with
      | none => elimLoop oracle fuel rest output (empty ++ cur_list)
      | some data =>
        if data.isEmpty then elimLoop oracle fuel rest output (empty ++ cur_list)
        else
          elimLoop oracle fuel
            (rest ++ cur_list.filter fun item => seriesMax (data.getCol item) = 0)
            (output ++ cur_list.filter fun item => ¬ seriesMax (data.getCol item) = 0)
            empty

/-- `eliminate_empty(wrapper, input_list)`, the oracle already resolved
through the cache (each Query Key yields one fixed profile, `none` standing
for pytrends returning `None`). -/
def eliminate_empty (oracle : Finset String → Option DataFrame) (fuel : ℕ)
    (input_list : List String) : Option (List String × List String) :=
  elimLoop oracle fuel input_list [] []

/-! ## optimized_sort

Python compares `val is pivot` by *object identity* while
`frozenset([pivot, val])` and `data[val]` see only the string *value*.  An
`Obj` keeps both: `.1` is the object identity (the CPython id), `.2` the
string value. -/

/-- A Python string object: object identity paired with the string value. -/
abbrev Obj := ℕ × String

/-- `data[val].max() - data[pivot].max()` for the profile of
`frozenset([pivot, val])`: the bucket key of `val` in a partition step whose
pivot is `pivot`. -/
def diffKey (oracle : Finset String → DataFrame) (pivot val : Obj) : ℚ :=
  let data := oracle (pyFrozenset [pivot.2, val.2])
  seriesMax (data.getCol val.2) - seriesMax (data.getCol pivot.2)

/-- `buckets.setdefault(k, []).append(v)` on an insertion-ordered dict
(embedded as an association list in key-insertion order). -/
def addToBucket (bs : List (ℚ × List Obj)) (k : ℚ) (v : Obj) :
    List (ℚ × List Obj) :=
  match bs with
  | [] => [(k, [v])]
  | (k', b) :: rest =>
    if k' = k then (k', b ++ [v]) :: rest else (k', b) :: addToBucket rest k v

/-- The bucket-building `for` loop of `optimized_sort`: every item that is
not (identically) the pivot is appended to the bucket keyed by its diff. -/
def buildBuckets (oracle : Finset String → DataFrame) (pivot : Obj)
    (l : List Obj) : List (ℚ × List Obj) :=
  l.foldl
    (fun bs val =>
      if val = pivot then bs else addToBucket bs (diffKey oracle pivot val) val)
    []

/-- Stable insertion into a list of buckets held in descending key order:
the new bucket goes before the first strictly smaller key.  With the unique
keys produced by a dict this computes exactly
`sorted(buckets.items(), key=lambda x: x[0], reverse=True)`. -/
def insertBucketDesc (p : ℚ × List Obj) :
    List (ℚ × List Obj) → List (ℚ × List Obj)
  | [] => [p]
  | q :: qs => if q.1 < p.1 then p :: q :: qs else q :: insertBucketDesc p qs

/-- `sorted(buckets.items(), key=lambda x: x[0], reverse=True)`. -/
def sortBucketsDesc (bs : List (ℚ × List Obj)) : List (ℚ × List Obj) :=
  bs.foldl (fun acc p => insertBucketDesc p acc) []

/-- `[item for key, bucket in buckets for item in bucket]`. -/
def flattenBuckets : List (ℚ × List Obj) → List Obj
  | [] => []
  | (_, b) :: rest => b ++ flattenBuckets rest

/-- Total size of a bucket list's contents. -/
def bucketsSize (bs : List (ℚ × List Obj)) : ℕ :=
  (flattenBuckets bs).length

theorem flattenBuckets_addToBucket (bs : List (ℚ × List Obj)) (k : ℚ)
    (v : Obj) : flattenBuckets (addToBucket bs k v) ~ v :: flattenBuckets bs := by
  induction bs with
  | nil => simp [addToBucket, flattenBuckets]
  | cons q rest ih =>
    obtain ⟨k', b⟩ := q
    by_cases h : k' = k
    · simp only [addToBucket, if_pos h, flattenBuckets, List.append_assoc,
        List.singleton_append]
      exact List.perm_middle
    · simp only [addToBucket, if_neg h, flattenBuckets]
      exact ((ih.append_left b).trans List.perm_middle)

theorem bucketsSize_addToBucket (bs : List (ℚ × List Obj)) (k : ℚ) (v : Obj) :
    bucketsSize (addToBucket bs k v) = bucketsSize bs + 1 := by
  have h := (flattenBuckets_addToBucket bs k v).length_eq
  simpa [bucketsSize, Nat.add_comm] using h

theorem length_le_bucketsSize {bs : List (ℚ × List Obj)} {k : ℚ}
    {b : List Obj} (h : (k, b) ∈ bs) : b.length ≤ bucketsSize bs := by
  induction bs with
  | nil => cases h
  | cons q rest ih =>
    obtain ⟨k', b'⟩ := q
    rcases List.mem_cons.mp h with h | h
    · cases h
      simp only [bucketsSize, flattenBuckets, List.length_append]
      omega
    · have := ih h
      simp only [bucketsSize, flattenBuckets, List.length_append] at *
      omega

theorem flattenBuckets_buildBuckets (oracle : Finset String → DataFrame)
    (pivot : Obj) (l : List Obj) :
    flattenBuckets (buildBuckets oracle pivot l) ~ l.filter (· ≠ pivot) := by
  suffices h : ∀ bs, flattenBuckets
      (l.foldl (fun bs val => if val = pivot then bs
        else addToBucket bs (diffKey oracle pivot val) val) bs)
      ~ l.filter (· ≠ pivot) ++ flattenBuckets bs by
    have h0 := h []
    simpa [buildBuckets, flattenBuckets] using h0
  induction l with
  | nil => intro bs; simp
  | cons x xs ih =>
    intro bs
    by_cases hx : x = pivot
    · simpa [List.foldl_cons, hx] using ih bs
    · simp only [List.foldl_cons, if_neg hx, List.filter_cons, ne_eq, hx,
        not_false_eq_true, decide_true_eq_true]
      refine (ih _).trans ?_
      refine List.Perm.trans ?_ List.perm_middle
      exact (flattenBuckets_addToBucket bs _ x).append_left _

theorem length_filter_ne_lt {l : List Obj} {pivot : Obj} (h : pivot ∈ l) :
    (l.filter (· ≠ pivot)).length < l.length := by
  induction l with
  | nil => cases h
  | cons x xs ih =>
    by_cases hx : x = pivot
    · subst hx
      have h1 : (xs.filter (· ≠ x)).length ≤ xs.length :=
        List.length_filter_le _ _
      have h2 : (x :: xs).filter (· ≠ x) = xs.filter (· ≠ x) := by simp
      rw [h2]
      simp only [List.length_cons]
      omega
    · have hp : pivot ∈ xs := by
        rcases List.mem_cons.mp h with h' | h'
        · exact absurd h'.symm hx
        · exact h'
      have h1 := ih hp
      have h2 : (x :: xs).filter (· ≠ pivot) = x :: xs.filter (· ≠ pivot) := by
        simp [hx]
      rw [h2]
      simp only [List.length_cons]
      omega

theorem bucket_length_lt {oracle : Finset String → DataFrame} {pivot : Obj}
    {l : List Obj} {k : ℚ} {b : List Obj}
    (hmem : (k, b) ∈ buildBuckets oracle pivot l) (hp : pivot ∈ l) :
    b.length < l.length := by
  have h1 : b.length ≤ bucketsSize (buildBuckets oracle pivot l) :=
    length_le_bucketsSize hmem
  have h2 : bucketsSize (buildBuckets oracle pivot l)
      = (l.filter (· ≠ pivot)).length :=
    (flattenBuckets_buildBuckets oracle pivot l).length_eq
  have h3 := length_filter_ne_lt hp
  omega

/-- `optimized_sort(wrapper, input_list)` with the oracle already resolved
through the cache.  The code's `input_list is None` branch cannot arise for a
list argument; lists of length ≤ 1 are returned as an unchanged copy.
Buckets whose key exceeds 95 in absolute value are recursively sorted, the
pivot joins bucket 0, and the buckets are emitted in descending key order. -/
def optimized_sort (oracle : Finset String → DataFrame) (input_list : List Obj) :
    List Obj :=
  if h : input_list.length ≤ 1 then input_list
  else
    let pivot := input_list.get
      ⟨input_list.length / 2, Nat.div_lt_self (by omega) (by omega)⟩
    let buckets := buildBuckets oracle pivot input_list
    let buckets2 := buckets.attach.map fun x =>
      if 95 < |x.1.1| then (x.1.1, optimized_sort oracle x.1.2) else x.1
    flattenBuckets (sortBucketsDesc (addToBucket buckets2 0 pivot))
termination_by input_list.length
decreasing_by
  exact bucket_length_lt x.2 (List.get_mem _ _ _)

/-! ## evaluate_data -/

/-- The inner `concat_data(data, column)`:
`pd.concat([data, column.astype(float)], axis=1)`, appending the named
series `column` as a new column (`astype(float)` is the identity on the
rational abstraction; `pd.concat` ignores a `None` first argument). -/
def concat_data (data : Option DataFrame) (name : String) (column : Series) :
    DataFrame :=
  match data with
  | none => ⟨[(name, column)]⟩
  | some d => ⟨d.cols ++ [(name, column)]⟩

/-- The `for i, val in enumerate(input_list)` loop of `evaluate_data`:
every element except the last contributes its column from the pairwise
profile `{val, next_val}` followed by a whole-table rescale by
`cur_data[val].max() / cur_data[next_val].max()`; the last element
contributes its column from its singleton profile, unscaled. -/
def evalLoop (oracle : Finset String → DataFrame) :
    Option DataFrame → List String → Option DataFrame
  | data, [] => data
  | data, [val] =>
    some (concat_data data val ((oracle (pyFrozenset [val])).getCol val))
  | data, val :: next_val :: rest =>
    let cur_data := oracle (pyFrozenset [val, next_val])
    let data' := concat_data data val (cur_data.getCol val)
    evalLoop oracle
      (some (data'.multiply
        (seriesMax (cur_data.getCol val) / seriesMax (cur_data.getCol next_val))))
      (next_val :: rest)

/-- `evaluate_data(wrapper, input_list)` with the oracle already resolved
through the cache.  Note the Python function initializes `data = None` and
returns it unchanged when the loop body never runs. -/
def evaluate_data (oracle : Finset String → DataFrame)
    (input_list : List String) : Option DataFrame :=
  evalLoop oracle none input_list

/-! ## Cache lemmas -/

/-- After a `get`, the cache holds the key's cache key; a second `get` on any
Query Key with the same cache key returns the same profile and leaves the
state — cache and `call_count` — untouched. -/
theorem get_stable_of_cacheKey_eq (keyPref : String)
    (oracle : Finset String → DataFrame) (s : WState) {key₁ key₂ : Finset String}
    (h : cacheKey keyPref key₂ = cacheKey keyPref key₁) :
    (PyTrendsWrapper.get keyPref oracle
        (PyTrendsWrapper.get keyPref oracle s key₁).2 key₂).1
      = (PyTrendsWrapper.get keyPref oracle s key₁).1 ∧
    (PyTrendsWrapper.get keyPref oracle
        (PyTrendsWrapper.get keyPref oracle s key₁).2 key₂).2
      = (PyTrendsWrapper.get keyPref oracle s key₁).2 := by
  simp only [PyTrendsWrapper.get, h]
  by_cases hs : (s.cache.lookup (cacheKey keyPref key₁)).isSome
  · simp [hs]
  · simp [hs, List.lookup]

/-- C2 (code evaluation): `evaluate_data` applied to the empty item list
returns Python `None` — the `data = None` initialization flows through the
skipped loop to the `return` — rather than raising any error. -/
theorem evaluate_data_nil (oracle : Finset String → DataFrame) :
    evaluate_data oracle [] = none := rfl

/-- C5: resolving the same Query Key a second time through
`PyTrendsWrapper.get` returns the same stored profile and leaves the whole
wrapper state — in particular the external-call counter `call_count` —
unchanged, so no second external oracle call is issued. -/
theorem get_cache_idempotent (keyPref : String)
    (oracle : Finset String → DataFrame) (s : WState) (key : Finset String) :
    (PyTrendsWrapper.get keyPref oracle
        (PyTrendsWrapper.get keyPref oracle s key).2 key).1
      = (PyTrendsWrapper.get keyPref oracle s key).1 ∧
    (PyTrendsWrapper.get keyPref oracle
        (PyTrendsWrapper.get keyPref oracle s key).2 key).2
      = (PyTrendsWrapper.get keyPref oracle s key).2 :=
  get_stable_of_cacheKey_eq keyPref oracle s rfl

/-- C6: the Query Keys built from `[A, B]` and from `[B, A]` are the same
frozenset, hence produce the identical cache key string, and resolving the
second right after the first returns the identical cached entry with the
wrapper state unchanged. -/
theorem frozenset_pair_comm (keyPref A B : String)
    (oracle : Finset String → DataFrame) (s : WState) :
    pyFrozenset [A, B] = pyFrozenset [B, A] ∧
    cacheKey keyPref (pyFrozenset [A, B])
      = cacheKey keyPref (pyFrozenset [B, A]) ∧
    ((PyTrendsWrapper.get keyPref oracle
        (PyTrendsWrapper.get keyPref oracle s (pyFrozenset [A, B])).2
        (pyFrozenset [B, A])).1
      = (PyTrendsWrapper.get keyPref oracle s (pyFrozenset [A, B])).1 ∧
     (PyTrendsWrapper.get keyPref oracle
        (PyTrendsWrapper.get keyPref oracle s (pyFrozenset [A, B])).2
        (pyFrozenset [B, A])).2
      = (PyTrendsWrapper.get keyPref oracle s (pyFrozenset [A, B])).2) := by
  have hset : pyFrozenset [A, B] = pyFrozenset [B, A] := by
    simp only [pyFrozenset, List.toFinset_cons, List.toFinset_nil]
    exact Finset.Insert.comm A B ∅
  refine ⟨hset, by rw [hset], ?_⟩
  exact get_stable_of_cacheKey_eq keyPref oracle s (by rw [hset])

theorem sort_pair_A_B :
    (pyFrozenset ["A", "B"]).sort (· ≤ ·) = ["A", "B"] := by
  have h1 : pyFrozenset ["A", "B"] = insert "A" ({"B"} : Finset String) := by
    simp [pyFrozenset]
  rw [h1, Finset.sort_insert]
  · rw [Finset.sort_singleton]
  · intro b hb
    rw [Finset.mem_singleton] at hb
    subst hb
    rw [String.le_iff_toList_le]
    decide
  · decide

theorem sort_singleton_AB :
    (pyFrozenset ["A, B"]).sort (· ≤ ·) = ["A, B"] := by
  have h1 : pyFrozenset ["A, B"] = ({"A, B"} : Finset String) := by
    simp [pyFrozenset]
  rw [h1, Finset.sort_singleton]

/-- C9: the cache key string is not injective in the Query Key: the
singleton frozenset of the item `"A, B"` and the two-element frozenset
`{"A", "B"}` are distinct Query Keys with the same cache key, so on a fresh
wrapper state, resolving the second right after the first returns the first
key's stored profile (the oracle's answer for `{"A, B"}`), issues no second
external call, and leaves `call_count` at 1. -/
theorem cacheKey_not_injective (keyPref : String)
    (oracle : Finset String → DataFrame) :
    pyFrozenset ["A, B"] ≠ pyFrozenset ["A", "B"] ∧
    cacheKey keyPref (pyFrozenset ["A, B"])
      = cacheKey keyPref (pyFrozenset ["A", "B"]) ∧
    ((PyTrendsWrapper.get keyPref oracle
        (PyTrendsWrapper.get keyPref oracle ⟨[], 0⟩ (pyFrozenset ["A, B"])).2
        (pyFrozenset ["A", "B"])).1
      = oracle (pyFrozenset ["A, B"]) ∧
     (PyTrendsWrapper.get keyPref oracle
        (PyTrendsWrapper.get keyPref oracle ⟨[], 0⟩ (pyFrozenset ["A, B"])).2
        (pyFrozenset ["A", "B"])).2.call_count = 1) := by
  have hck : cacheKey keyPref (pyFrozenset ["A, B"])
      = cacheKey keyPref (pyFrozenset ["A", "B"]) := by
    rw [cacheKey, cacheKey, sort_pair_A_B, sort_singleton_AB]
    have : String.intercalate ", " ["A, B"]
        = String.intercalate ", " ["A", "B"] := by
      simp [String.intercalate, String.intercalate.go]
    rw [this]
  have hfirst : (PyTrendsWrapper.get keyPref oracle ⟨[], 0⟩
      (pyFrozenset ["A, B"])).1 = oracle (pyFrozenset ["A, B"]) ∧
      (PyTrendsWrapper.get keyPref oracle ⟨[], 0⟩
      (pyFrozenset ["A, B"])).2.call_count = 1 := by
    simp [PyTrendsWrapper.get, List.lookup]
  have hstable := @get_stable_of_cacheKey_eq keyPref oracle ⟨[], 0⟩
    (pyFrozenset ["A, B"]) (pyFrozenset ["A", "B"]) hck.symm
  refine ⟨by decide, hck, ?_, ?_⟩
  · rw [hstable.1, hfirst.1]
  · rw [hstable.2, hfirst.2]

/-! ## eliminate_empty: conservation, disjointness, termination -/



theorem coe_filter_add_filter_not (p : String → Bool) (l : List String) :
    (↑(l.filter p) : Multiset String) + ↑(l.filter fun x => !p x)
      = (↑l : Multiset String) := by
  rw [Multiset.coe_add]
  exact Multiset.coe_eq_coe.mpr (List.filter_append_perm p l)

/-- Unfolding equation for one iteration of the loop on a nonempty queue. -/
theorem elimLoop_succ (oracle : Finset String → Option DataFrame) (fuel : ℕ)
    (q output empty : List String) (hq : ¬ q = []) :
    elimLoop oracle (fuel + 1) q output empty =
      match oracle (pyFrozenset (q.take 5)) with
      | none => elimLoop oracle fuel (q.drop 5) output (empty ++ q.take 5)
      | some data =>
        if data.isEmpty then
          elimLoop oracle fuel (q.drop 5) output (empty ++ q.take 5)
        else
          elimLoop oracle fuel
            (q.drop 5 ++ (q.take 5).filter
              fun item => seriesMax (data.getCol item) = 0)
            (output ++ (q.take 5).filter
              fun item => ¬ seriesMax (data.getCol item) = 0)
            empty := by
  rw [elimLoop, if_neg hq]

/-- The state invariant of `eliminate_empty`'s loop: when the loop reaches an
empty queue, the multiset of classified items equals the multiset of items
that were in `output`, `empty` and the queue at entry. -/
theorem elimLoop_conserves (oracle : Finset String → Option DataFrame) :
    ∀ (fuel : ℕ) (q output empty : List String)
      (r : List String × List String),
      elimLoop oracle fuel q output empty = some r →
      (↑(r.1 ++ r.2) : Multiset String) = ↑output + ↑empty + ↑q := by
  intro fuel
  induction fuel with
  | zero =>
    intro q output empty r h
    by_cases hq : q = []
    · subst hq
      simp only [elimLoop, if_true] at h
      cases h
      simp
    · simp [elimLoop, hq] at h
  | succ n ih =>
    intro q output empty r h
    by_cases hq : q = []
    · subst hq
      simp only [elimLoop, if_true] at h
      cases h
      simp
    · rw [elimLoop_succ oracle n q output empty hq] at h
      rcases horacle : oracle (pyFrozenset (q.take 5)) with _ | data <;>
        rw [horacle] at h <;> dsimp only at h
      · have hr := ih _ _ _ _ h
        rw [hr]
        conv_rhs => rw [← List.take_append_drop 5 q]
        simp only [← Multiset.coe_add]
        abel
      · by_cases hemp : data.isEmpty
        · rw [if_pos hemp] at h
          have hr := ih _ _ _ _ h
          rw [hr]
          conv_rhs => rw [← List.take_append_drop 5 q]
          simp only [← Multiset.coe_add]
          abel
        · rw [if_neg hemp] at h
          have hr := ih _ _ _ _ h
          rw [hr]
          conv_rhs => rw [← List.take_append_drop 5 q]
          have hpart := coe_filter_add_filter_not
            (fun item => decide (seriesMax (data.getCol item) = 0)) (q.take 5)
          simp only [decide_not] at hr ⊢
          simp only [← Multiset.coe_add]
          rw [← hpart]
          abel

/-- Whenever the loop terminates, the classified lists are a multiset
partition of the input. -/
theorem eliminate_empty_perm (oracle : Finset String → Option DataFrame)
    (fuel : ℕ) (input_list : List String) (r : List String × List String)
    (h : eliminate_empty oracle fuel input_list = some r) :
    (r.1 ++ r.2) ~ input_list := by
  have hc := elimLoop_conserves oracle fuel input_list [] [] r h
  rw [← Multiset.coe_eq_coe]
  simpa using hc

/-- C10: whenever `eliminate_empty` terminates, it loses no item — the
multiset union of the returned `signal_items` and `empty_items` equals the
multiset of the input list (batches with an absent or empty profile are
recorded in `empty_items` rather than discarded). -/
theorem eliminate_empty_conserves (oracle : Finset String → Option DataFrame)
    (fuel : ℕ) (input_list : List String) (r : List String × List String)
    (h : eliminate_empty oracle fuel input_list = some r) :
    (r.1 ++ r.2) ~ input_list :=
  eliminate_empty_perm oracle fuel input_list r h

/-- Witness for C10 at a concrete run: an oracle with no data classifies
both items as empty and the two output lists partition the input. -/
theorem eliminate_empty_conserves_witness :
    eliminate_empty (fun _ => none) 2 ["X", "Y"] = some ([], ["X", "Y"]) ∧
    (([] ++ ["X", "Y"] : List String)) ~ ["X", "Y"] :=
  ⟨by decide, eliminate_empty_conserves (fun _ => none) 2 ["X", "Y"]
    ([], ["X", "Y"]) (by decide)⟩

/-- A fixed oracle for the duplicate-input counterexample: the first batch
of five has full signal, every other Query Key has no data. -/
def oracleDup : Finset String → Option DataFrame := fun k =>
  if k = pyFrozenset ["X", "A", "B", "C", "D"] then
    some ⟨[("X", [1]), ("A", [1]), ("B", [1]), ("C", [1]), ("D", [1])]⟩
  else none

/-- C4 counterexample: with the duplicated item `"X"` (the spec assumes no
deduplication), the first occurrence is accepted from the first batch while
the second occurrence's singleton batch has no data, so the value `"X"`
appears in `signal_items` *and* in `empty_items`: the returned lists are not
disjoint. -/
theorem eliminate_empty_not_disjoint :
    eliminate_empty oracleDup 6 ["X", "A", "B", "C", "D", "X"]
      = some (["X", "A", "B", "C", "D"], ["X"]) ∧
    ¬ (∀ x ∈ (["X", "A", "B", "C", "D"] : List String),
        x ∉ (["X"] : List String)) := by
  constructor
  · decide
  · decide

/-- C4 (amended): for a duplicate-free input list, whenever
`eliminate_empty` terminates, no item of `signal_items` occurs in
`empty_items` and vice versa. -/
theorem eliminate_empty_disjoint (oracle : Finset String → Option DataFrame)
    (fuel : ℕ) (input_list : List String) (r : List String × List String)
    (hnd : input_list.Nodup)
    (h : eliminate_empty oracle fuel input_list = some r) :
    ∀ x ∈ r.1, x ∉ r.2 := by
  have hperm := eliminate_empty_perm oracle fuel input_list r h
  have hnodup : (r.1 ++ r.2).Nodup := hperm.symm.nodup hnd
  exact (List.nodup_append.mp hnodup).2.2

/-- Witness for the amended C4 at a concrete run. -/
theorem eliminate_empty_disjoint_witness :
    (["P", "Q"] : List String).Nodup ∧
    eliminate_empty (fun _ => none) 2 ["P", "Q"] = some ([], ["P", "Q"]) ∧
    (∀ x ∈ ([] : List String), x ∉ (["P", "Q"] : List String)) :=
  ⟨by decide, by decide,
    eliminate_empty_disjoint (fun _ => none) 2 ["P", "Q"] ([], ["P", "Q"])
      (by decide) (by decide)⟩

/-- A fixed oracle under which the filter loops forever: the singleton key
`{"X"}` resolves to a one-row profile whose only column is exactly zero, so
`"X"` is re-queued by every iteration. -/
def oracleZero : Finset String → Option DataFrame := fun k =>
  if k = pyFrozenset ["X"] then some ⟨[("X", [0])]⟩ else none

theorem elimLoop_oracleZero (fuel : ℕ) :
    elimLoop oracleZero fuel ["X"] [] [] = none := by
  induction fuel with
  | zero => rfl
  | succ n ih => exact ih

/-- C1 counterexample: there is a fixed-profile oracle behaviour — every
Query Key resolves to one fixed profile — under which `eliminate_empty`
never reaches an empty queue on the input `["X"]`: the queue state repeats
forever (no amount of loop fuel produces a result). -/
theorem eliminate_empty_nonterminating :
    ¬ ∃ (fuel : ℕ) (r : List String × List String),
      eliminate_empty oracleZero fuel ["X"] = some r := by
  rintro ⟨fuel, r, hr⟩
  rw [eliminate_empty, elimLoop_oracleZero] at hr
  cases hr

/-- An oracle behaviour that never triggers the zero-max re-queue: every
resolved nonempty profile reports a nonzero column max for each member of
its Query Key. -/
def GoodOracle (oracle : Finset String → Option DataFrame) : Prop :=
  ∀ k df, oracle k = some df → df.isEmpty = false →
    ∀ x ∈ k, seriesMax (df.getCol x) ≠ 0

theorem elimLoop_terminates (oracle : Finset String → Option DataFrame)
    (hgood : GoodOracle oracle) :
    ∀ (fuel : ℕ) (q : List String), q.length ≤ fuel →
      ∀ output empty, (elimLoop oracle fuel q output empty).isSome := by
  intro fuel
  induction fuel with
  | zero =>
    intro q hlen output empty
    have hq : q = [] := List.length_eq_zero.mp (Nat.le_zero.mp hlen)
    subst hq
    simp [elimLoop]
  | succ n ih =>
    intro q hlen output empty
    by_cases hq : q = []
    · subst hq
      simp [elimLoop]
    · have hqpos : 0 < q.length := List.length_pos.mpr hq
      have hdrop : (q.drop 5).length ≤ n := by
        rw [List.length_drop]
        omega
      rw [elimLoop_succ oracle n q output empty hq]
      rcases horacle : oracle (pyFrozenset (q.take 5)) with _ | data <;>
        dsimp only
      · exact ih _ hdrop _ _
      · by_cases hemp : data.isEmpty
        · rw [if_pos hemp]
          exact ih _ hdrop _ _
        · rw [if_neg hemp]
          have hfilter : (q.take 5).filter
              (fun item => seriesMax (data.getCol item) = 0) = [] := by
            rw [List.filter_eq_nil_iff]
            intro item hitem
            have hk : item ∈ pyFrozenset (q.take 5) := by
              rw [pyFrozenset, List.mem_toFinset]
              exact hitem
            have := hgood _ _ horacle (Bool.eq_false_iff.mpr hemp) item hk
            simpa using this
          rw [hfilter, List.append_nil]
          exact ih _ hdrop _ _

/-- C1 (amended): the filter reaches an empty queue for every oracle
behaviour in which each resolved nonempty profile gives every member of its
Query Key a nonzero column max — then no item is ever re-queued, every
iteration strictly shrinks the queue, and fuel `input_list.length` suffices.
(The original claim — termination for *every* fixed-profile oracle — fails;
see the counterexample.) -/
theorem eliminate_empty_terminates (oracle : Finset String → Option DataFrame)
    (hgood : GoodOracle oracle) (input_list : List String) :
    (eliminate_empty oracle input_list.length input_list).isSome :=
  elimLoop_terminates oracle hgood input_list.length input_list le_rfl [] []

/-- Witness for the amended C1: the all-`None` oracle is trivially good and
the filter terminates on a concrete input. -/
theorem eliminate_empty_terminates_witness :
    GoodOracle (fun _ => none) ∧
    (eliminate_empty (fun _ => none)
      (["X", "Y", "Z"] : List String).length ["X", "Y", "Z"]).isSome :=
  ⟨(fun _ _ h => nomatch h),
    eliminate_empty_terminates (fun _ => none) (fun _ _ h => nomatch h)
      ["X", "Y", "Z"]⟩

/-! ## evaluate_data: the 3-item reconstruction chain -/

/-- The stub oracle of the reconstruction-chain example: profile `{A,B}`
with `max(A)=80, max(B)=40`, profile `{B,C}` with `max(B)=40, max(C)=50`,
and the singleton profile `{C}` with `max(C)=50`. -/
def oracleStub : Finset String → DataFrame := fun k =>
  if k = pyFrozenset ["A", "B"] then ⟨[("A", [80]), ("B", [40])]⟩
  else if k = pyFrozenset ["B", "C"] then ⟨[("B", [40]), ("C", [50])]⟩
  else if k = pyFrozenset ["C"] then ⟨[("C", [50])]⟩
  else ⟨[]⟩

theorem oracleStub_AB :
    oracleStub (pyFrozenset ["A", "B"]) = ⟨[("A", [80]), ("B", [40])]⟩ := by
  decide

theorem oracleStub_BC :
    oracleStub (pyFrozenset ["B", "C"]) = ⟨[("B", [40]), ("C", [50])]⟩ := by
  decide

theorem oracleStub_C :
    oracleStub (pyFrozenset ["C"]) = ⟨[("C", [50])]⟩ := by
  decide

theorem evaluate_data_stub_eval :
    evaluate_data oracleStub ["A", "B", "C"]
      = some ⟨[("A", [80 * (80 / 40) * (40 / 50)]),
               ("B", [40 * (40 / 50)]),
               ("C", [50])]⟩ := by
  rw [evaluate_data]
  rw [show evalLoop oracleStub none ["A", "B", "C"] =
    evalLoop oracleStub
      (some ((concat_data none "A"
          ((oracleStub (pyFrozenset ["A", "B"])).getCol "A")).multiply
        (seriesMax ((oracleStub (pyFrozenset ["A", "B"])).getCol "A")
          / seriesMax ((oracleStub (pyFrozenset ["A", "B"])).getCol "B"))))
      ["B", "C"] from rfl]
  rw [oracleStub_AB]
  rw [show evalLoop oracleStub
      (some ((concat_data none "A"
          ((⟨[("A", [80]), ("B", [40])]⟩ : DataFrame).getCol "A")).multiply
        (seriesMax ((⟨[("A", [80]), ("B", [40])]⟩ : DataFrame).getCol "A")
          / seriesMax ((⟨[("A", [80]), ("B", [40])]⟩ : DataFrame).getCol "B"))))
      ["B", "C"] =
    evalLoop oracleStub
      (some (⟨[("A", [80 * (80 / 40)])]⟩ : DataFrame)) ["B", "C"] from rfl]
  rw [show evalLoop oracleStub
      (some (⟨[("A", [80 * (80 / 40)])]⟩ : DataFrame)) ["B", "C"] =
    evalLoop oracleStub
      (some ((concat_data (some ⟨[("A", [80 * (80 / 40)])]⟩) "B"
          ((oracleStub (pyFrozenset ["B", "C"])).getCol "B")).multiply
        (seriesMax ((oracleStub (pyFrozenset ["B", "C"])).getCol "B")
          / seriesMax ((oracleStub (pyFrozenset ["B", "C"])).getCol "C"))))
      ["C"] from rfl]
  rw [oracleStub_BC]
  rw [show evalLoop oracleStub
      (some ((concat_data (some ⟨[("A", [80 * (80 / 40)])]⟩) "B"
          ((⟨[("B", [40]), ("C", [50])]⟩ : DataFrame).getCol "B")).multiply
        (seriesMax ((⟨[("B", [40]), ("C", [50])]⟩ : DataFrame).getCol "B")
          / seriesMax ((⟨[("B", [40]), ("C", [50])]⟩ : DataFrame).getCol "C"))))
      ["C"] =
    evalLoop oracleStub
      (some (⟨[("A", [80 * (80 / 40) * (40 / 50)]),
               ("B", [40 * (40 / 50)])]⟩ : DataFrame)) ["C"] from rfl]
  rw [show evalLoop oracleStub
      (some (⟨[("A", [80 * (80 / 40) * (40 / 50)]),
               ("B", [40 * (40 / 50)])]⟩ : DataFrame)) ["C"] =
    some (concat_data
      (some ⟨[("A", [80 * (80 / 40) * (40 / 50)]), ("B", [40 * (40 / 50)])]⟩)
      "C" ((oracleStub (pyFrozenset ["C"])).getCol "C")) from rfl]
  rw [oracleStub_C]
  rfl

/-- C3 counterexample: under the claim's stub values (completed with the
profile `{B,C}` carrying the same stub maxima `max(B)=40, max(C)=50`), the
A column of the reconstructed table is `rawA · (80/40) · (40/50) = [128]`,
which is *not* `rawA` multiplied by `40/50` (that would be `[64]`): the
first link's `(80,40)` ratio also scales A. -/
theorem evaluate_data_chain_cex :
    ((evaluate_data oracleStub ["A", "B", "C"]).getD ⟨[]⟩).getCol "A"
      = [(128 : ℚ)] ∧
    ((evaluate_data oracleStub ["A", "B", "C"]).getD ⟨[]⟩).getCol "A"
      ≠ ((oracleStub (pyFrozenset ["A", "B"])).getCol "A").map
          (· * (40 / 50)) := by
  have heval : ((evaluate_data oracleStub ["A", "B", "C"]).getD ⟨[]⟩).getCol "A"
      = [(80 : ℚ) * (80 / 40) * (40 / 50)] := by
    rw [evaluate_data_stub_eval]
    rfl
  have hraw : ((oracleStub (pyFrozenset ["A", "B"])).getCol "A").map
      (· * ((40 : ℚ) / 50)) = [(80 : ℚ) * (40 / 50)] := by
    rw [oracleStub_AB]
    rfl
  constructor
  · rw [heval]
    norm_num
  · rw [heval, hraw]
    intro hcontra
    rw [List.cons.injEq] at hcontra
    have h1 : (80 : ℚ) * (80 / 40) * (40 / 50) = 80 * (40 / 50) := hcontra.1
    norm_num at h1

/-- C3 (amended): for the 3-item input `[A,B,C]` with the stub profiles
`{A,B} : max(A)=80, max(B)=40`, `{B,C} : max(B)=40, max(C)=50` and
`{C} : max(C)=50`, the A column of the table returned by `evaluate_data`
equals A's raw column multiplied by `(80/40) · (40/50)` — every link of the
chain applies its own max-ratio to the whole accumulated table, so the
`(80,40)` link scales A as well as the `(40,50)` link. -/
theorem evaluate_data_chain :
    ((evaluate_data oracleStub ["A", "B", "C"]).getD ⟨[]⟩).getCol "A"
      = ((oracleStub (pyFrozenset ["A", "B"])).getCol "A").map
          (· * ((80 / 40) * (40 / 50))) := by
  have heval : ((evaluate_data oracleStub ["A", "B", "C"]).getD ⟨[]⟩).getCol "A"
      = [(80 : ℚ) * (80 / 40) * (40 / 50)] := by
    rw [evaluate_data_stub_eval]
    rfl
  have hraw : ((oracleStub (pyFrozenset ["A", "B"])).getCol "A").map
      (· * (((80 : ℚ) / 40) * (40 / 50))) = [(80 : ℚ) * ((80 / 40) * (40 / 50))] := by
    rw [oracleStub_AB]
    rfl
  rw [heval, hraw, mul_assoc]

/-! ## optimized_sort: bucket lemmas -/

/-- The keys of a bucket list, in dict insertion order. -/
def keysOf (bs : List (ℚ × List Obj)) : List ℚ :=
  bs.map Prod.fst

theorem mem_flattenBuckets {bs : List (ℚ × List Obj)} {x : Obj} :
    x ∈ flattenBuckets bs ↔ ∃ p ∈ bs, x ∈ p.2 := by
  induction bs with
  | nil => simp [flattenBuckets]
  | cons q rest ih =>
    obtain ⟨k, b⟩ := q
    simp only [flattenBuckets, List.mem_append, ih, List.mem_cons]
    constructor
    · rintro (hx | ⟨p, hp, hxp⟩)
      · exact ⟨(k, b), Or.inl rfl, hx⟩
      · exact ⟨p, Or.inr hp, hxp⟩
    · rintro ⟨p, hp | hp, hxp⟩
      · subst hp
        exact Or.inl hxp
      · exact Or.inr ⟨p, hp, hxp⟩

theorem flattenBuckets_append (bs₁ bs₂ : List (ℚ × List Obj)) :
    flattenBuckets (bs₁ ++ bs₂) = flattenBuckets bs₁ ++ flattenBuckets bs₂ := by
  induction bs₁ with
  | nil => simp [flattenBuckets]
  | cons q rest ih =>
    obtain ⟨k, b⟩ := q
    simp [flattenBuckets, ih]

theorem flattenBuckets_perm {bs₁ bs₂ : List (ℚ × List Obj)}
    (h : bs₁ ~ bs₂) : flattenBuckets bs₁ ~ flattenBuckets bs₂ := by
  induction h with
  | nil => exact List.Perm.refl _
  | cons p _ ih =>
    obtain ⟨k, b⟩ := p
    exact ih.append_left b
  | swap p q _ =>
    obtain ⟨k₁, b₁⟩ := p
    obtain ⟨k₂, b₂⟩ := q
    simp only [flattenBuckets, ← List.append_assoc]
    exact (List.perm_append_comm.append_right _)
  | trans _ _ ih₁ ih₂ => exact ih₁.trans ih₂

theorem sublist_flattenBuckets {bs : List (ℚ × List Obj)} {k : ℚ}
    {b : List Obj} (h : (k, b) ∈ bs) : b.Sublist (flattenBuckets bs) := by
  induction bs with
  | nil => cases h
  | cons q rest ih =>
    obtain ⟨k', b'⟩ := q
    rcases List.mem_cons.mp h with h | h
    · cases h
      exact List.sublist_append_left b (flattenBuckets rest)
    · exact (ih h).trans (List.sublist_append_right b' (flattenBuckets rest))

theorem mem_of_mem_addToBucket {bs : List (ℚ × List Obj)} {k : ℚ} {v : Obj}
    {k' : ℚ} {b' : List Obj} {y : Obj}
    (hmem : (k', b') ∈ addToBucket bs k v) (hy : y ∈ b') :
    (y = v ∧ k' = k) ∨ ∃ b'', (k', b'') ∈ bs ∧ y ∈ b'' := by
  induction bs with
  | nil =>
    simp only [addToBucket, List.mem_singleton] at hmem
    cases hmem
    rcases List.mem_singleton.mp hy with rfl
    exact Or.inl ⟨rfl, rfl⟩
  | cons q rest ih =>
    obtain ⟨k₀, b₀⟩ := q
    by_cases hk : k₀ = k
    · rw [addToBucket, if_pos hk] at hmem
      rcases List.mem_cons.mp hmem with h | h
      · cases h
        rcases List.mem_append.mp hy with hyb | hyv
        · exact Or.inr ⟨b₀, List.mem_cons_self _ _, hyb⟩
        · rcases List.mem_singleton.mp hyv with rfl
          exact Or.inl ⟨rfl, hk⟩
      · exact Or.inr ⟨b', List.mem_cons_of_mem _ h, hy⟩
    · rw [addToBucket, if_neg hk] at hmem
      rcases List.mem_cons.mp hmem with h | h
      · cases h
        exact Or.inr ⟨b', List.mem_cons_self _ _, hy⟩
      · rcases ih h with h' | ⟨b'', hb'', hyb⟩
        · exact Or.inl h'
        · exact Or.inr ⟨b'', List.mem_cons_of_mem _ hb'', hyb⟩

theorem addToBucket_self (bs : List (ℚ × List Obj)) (k : ℚ) (v : Obj) :
    ∃ b, (k, b ++ [v]) ∈ addToBucket bs k v ∧ (b = [] ∨ (k, b) ∈ bs) := by
  induction bs with
  | nil => exact ⟨[], by simp [addToBucket], Or.inl rfl⟩
  | cons q rest ih =>
    obtain ⟨k₀, b₀⟩ := q
    by_cases hk : k₀ = k
    · subst hk
      exact ⟨b₀, by simp [addToBucket], Or.inr (List.mem_cons_self _ _)⟩
    · obtain ⟨b, hb, hcase⟩ := ih
      refine ⟨b, ?_, ?_⟩
      · rw [addToBucket, if_neg hk]
        exact List.mem_cons_of_mem _ hb
      · rcases hcase with h | h
        · exact Or.inl h
        · exact Or.inr (List.mem_cons_of_mem _ h)

theorem mem_addToBucket_of_mem {bs : List (ℚ × List Obj)} {d : ℚ}
    {b : List Obj} {x : Obj} (hmem : (d, b) ∈ bs) (hx : x ∈ b)
    (k : ℚ) (v : Obj) :
    ∃ b', (d, b') ∈ addToBucket bs k v ∧ x ∈ b' := by
  induction bs with
  | nil => cases hmem
  | cons q rest ih =>
    obtain ⟨k₀, b₀⟩ := q
    by_cases hk : k₀ = k
    · rw [addToBucket, if_pos hk]
      rcases List.mem_cons.mp hmem with h | h
      · cases h
        exact ⟨b ++ [v], List.mem_cons_self _ _,
          List.mem_append.mpr (Or.inl hx)⟩
      · exact ⟨b, List.mem_cons_of_mem _ h, hx⟩
    · rw [addToBucket, if_neg hk]
      rcases List.mem_cons.mp hmem with h | h
      · cases h
        exact ⟨b, List.mem_cons_self _ _, hx⟩
      · obtain ⟨b', hb', hxb'⟩ := ih h
        exact ⟨b', List.mem_cons_of_mem _ hb', hxb'⟩

theorem keysOf_addToBucket_subset {bs : List (ℚ × List Obj)} {k : ℚ}
    {v : Obj} {k₁ : ℚ} (h : k₁ ∈ keysOf (addToBucket bs k v)) :
    k₁ ∈ keysOf bs ∨ k₁ = k := by
  induction bs with
  | nil =>
    simp only [addToBucket, keysOf, List.map_cons, List.map_nil,
      List.mem_singleton] at h
    exact Or.inr h
  | cons q rest ih =>
    obtain ⟨k₀, b₀⟩ := q
    by_cases hk : k₀ = k
    · rw [addToBucket, if_pos hk] at h
      simp only [keysOf, List.map_cons, List.mem_cons] at h ⊢
      exact Or.inl h
    · rw [addToBucket, if_neg hk] at h
      simp only [keysOf, List.map_cons, List.mem_cons] at h ⊢
      rcases h with h | h
      · exact Or.inl (Or.inl h)
      · rcases ih h with h' | h'
        · exact Or.inl (Or.inr h')
        · exact Or.inr h'

theorem keysOf_addToBucket_nodup {bs : List (ℚ × List Obj)} {k : ℚ} {v : Obj}
    (h : (keysOf bs).Nodup) : (keysOf (addToBucket bs k v)).Nodup := by
  induction bs with
  | nil => simp [addToBucket, keysOf]
  | cons q rest ih =>
    obtain ⟨k₀, b₀⟩ := q
    simp only [keysOf, List.map_cons, List.nodup_cons] at h
    by_cases hk : k₀ = k
    · rw [addToBucket, if_pos hk]
      simp only [keysOf, List.map_cons, List.nodup_cons]
      exact ⟨h.1, h.2⟩
    · rw [addToBucket, if_neg hk]
      simp only [keysOf, List.map_cons, List.nodup_cons]
      refine ⟨?_, ih h.2⟩
      intro hcontra
      rcases keysOf_addToBucket_subset hcontra with h' | h'
      · exact h.1 h'
      · exact hk h'

theorem buildBuckets_key_inv (oracle : Finset String → DataFrame)
    (pivot : Obj) (l : List Obj) :
    ∀ k b, (k, b) ∈ buildBuckets oracle pivot l →
      ∀ x ∈ b, diffKey oracle pivot x = k := by
  suffices h : ∀ (l' : List Obj) (bs : List (ℚ × List Obj)),
      (∀ k b, (k, b) ∈ bs → ∀ x ∈ b, diffKey oracle pivot x = k) →
      ∀ k b, (k, b) ∈ l'.foldl (fun bs val => if val = pivot then bs
        else addToBucket bs (diffKey oracle pivot val) val) bs →
        ∀ x ∈ b, diffKey oracle pivot x = k by
    exact h l [] (by intro k b hb; cases hb)
  intro l'
  induction l' with
  | nil => intro bs hinv; exact hinv
  | cons y ys ih =>
    intro bs hinv
    simp only [List.foldl_cons]
    apply ih
    by_cases hy : y = pivot
    · rw [if_pos hy]
      exact hinv
    · rw [if_neg hy]
      intro k b hb x hx
      rcases mem_of_mem_addToBucket hb hx with ⟨rfl, rfl⟩ | ⟨b'', hb'', hxb⟩
      · rfl
      · exact hinv k b'' hb'' x hxb

theorem buildBuckets_complete (oracle : Finset String → DataFrame)
    (pivot : Obj) (l : List Obj) :
    ∀ x ∈ l, x ≠ pivot →
      ∃ b, (diffKey oracle pivot x, b) ∈ buildBuckets oracle pivot l
        ∧ x ∈ b := by
  have hstep : ∀ (bs : List (ℚ × List Obj)) (val : Obj) {d : ℚ} {x : Obj},
      (∃ b, (d, b) ∈ bs ∧ x ∈ b) →
      ∃ b, (d, b) ∈ (if val = pivot then bs
        else addToBucket bs (diffKey oracle pivot val) val) ∧ x ∈ b := by
    intro bs val d x ⟨b, hb, hxb⟩
    by_cases hv : val = pivot
    · rw [if_pos hv]; exact ⟨b, hb, hxb⟩
    · rw [if_neg hv]
      exact mem_addToBucket_of_mem hb hxb _ _
  have hkeep : ∀ (ys : List Obj) (bs : List (ℚ × List Obj)) {d : ℚ} {x : Obj},
      (∃ b, (d, b) ∈ bs ∧ x ∈ b) →
      ∃ b, (d, b) ∈ ys.foldl (fun bs val => if val = pivot then bs
        else addToBucket bs (diffKey oracle pivot val) val) bs ∧ x ∈ b := by
    intro ys
    induction ys with
    | nil => intro bs d x h; exact h
    | cons y ys ih =>
      intro bs d x h
      simp only [List.foldl_cons]
      exact ih _ (hstep bs y h)
  suffices h : ∀ (l' : List Obj) (bs : List (ℚ × List Obj)) (x : Obj),
      x ∈ l' → x ≠ pivot →
      ∃ b, (diffKey oracle pivot x, b) ∈ l'.foldl (fun bs val =>
        if val = pivot then bs
        else addToBucket bs (diffKey oracle pivot val) val) bs ∧ x ∈ b by
    intro x hx hne
    exact h l [] x hx hne
  intro l'
  induction l' with
  | nil => intro bs x hx; cases hx
  | cons y ys ih =>
    intro bs x hx hne
    simp only [List.foldl_cons]
    rcases List.mem_cons.mp hx with rfl | hx'
    · apply hkeep
      rw [if_neg hne]
      obtain ⟨b, hb, _⟩ := addToBucket_self bs (diffKey oracle pivot x) x
      exact ⟨b ++ [x], hb, List.mem_append.mpr (Or.inr (List.mem_singleton.mpr rfl))⟩
    · exact ih _ x hx' hne

theorem buildBuckets_keys_nodup (oracle : Finset String → DataFrame)
    (pivot : Obj) (l : List Obj) :
    (keysOf (buildBuckets oracle pivot l)).Nodup := by
  suffices h : ∀ (l' : List Obj) (bs : List (ℚ × List Obj)),
      (keysOf bs).Nodup →
      (keysOf (l'.foldl (fun bs val => if val = pivot then bs
        else addToBucket bs (diffKey oracle pivot val) val) bs)).Nodup by
    exact h l [] (by simp [keysOf])
  intro l'
  induction l' with
  | nil => intro bs h; exact h
  | cons y ys ih =>
    intro bs h
    simp only [List.foldl_cons]
    apply ih
    by_cases hy : y = pivot
    · rw [if_pos hy]; exact h
    · rw [if_neg hy]; exact keysOf_addToBucket_nodup h

theorem insertBucketDesc_perm (p : ℚ × List Obj)
    (bs : List (ℚ × List Obj)) : insertBucketDesc p bs ~ p :: bs := by
  induction bs with
  | nil => exact List.Perm.refl _
  | cons q qs ih =>
    by_cases h : q.1 < p.1
    · rw [insertBucketDesc, if_pos h]
    · rw [insertBucketDesc, if_neg h]
      exact (ih.cons q).trans (List.Perm.swap p q qs)

theorem sortBucketsDesc_perm (bs : List (ℚ × List Obj)) :
    sortBucketsDesc bs ~ bs := by
  suffices h : ∀ (l acc : List (ℚ × List Obj)),
      l.foldl (fun acc p => insertBucketDesc p acc) acc ~ l ++ acc by
    simpa [sortBucketsDesc] using h bs []
  intro l
  induction l with
  | nil => intro acc; simp
  | cons x xs ih =>
    intro acc
    simp only [List.foldl_cons]
    refine (ih _).trans ?_
    refine ((insertBucketDesc_perm x acc).append_left xs).trans ?_
    exact List.perm_middle

theorem insertBucketDesc_sorted {p : ℚ × List Obj}
    {bs : List (ℚ × List Obj)}
    (h : bs.Pairwise (fun a b => b.1 ≤ a.1)) :
    (insertBucketDesc p bs).Pairwise (fun a b => b.1 ≤ a.1) := by
  induction bs with
  | nil => simp [insertBucketDesc]
  | cons q qs ih =>
    rcases List.pairwise_cons.mp h with ⟨hq, hqs⟩
    by_cases hlt : q.1 < p.1
    · rw [insertBucketDesc, if_pos hlt]
      refine List.pairwise_cons.mpr ⟨?_, h⟩
      intro r hr
      rcases List.mem_cons.mp hr with rfl | hr'
      · exact le_of_lt hlt
      · exact (hq r hr').trans (le_of_lt hlt)
    · rw [insertBucketDesc, if_neg hlt]
      refine List.pairwise_cons.mpr ⟨?_, ih hqs⟩
      intro r hr
      have hr' := (insertBucketDesc_perm p qs).mem_iff.mp hr
      rcases List.mem_cons.mp hr' with rfl | hr''
      · exact le_of_not_lt hlt
      · exact hq r hr''

theorem sortBucketsDesc_sorted (bs : List (ℚ × List Obj)) :
    (sortBucketsDesc bs).Pairwise (fun a b => b.1 ≤ a.1) := by
  suffices h : ∀ (l acc : List (ℚ × List Obj)),
      acc.Pairwise (fun a b => b.1 ≤ a.1) →
      (l.foldl (fun acc p => insertBucketDesc p acc) acc).Pairwise
        (fun a b => b.1 ≤ a.1) by
    exact h bs [] (List.Pairwise.nil)
  intro l
  induction l with
  | nil => intro acc h; exact h
  | cons x xs ih =>
    intro acc h
    simp only [List.foldl_cons]
    exact ih _ (insertBucketDesc_sorted h)

/-- The dict-update step
`buckets |= {key: optimized_sort(...) for key, val in buckets.items() if abs(key) > 95}`:
every bucket whose key has absolute value above 95 is recursively sorted in
place. -/
def recurseBuckets (oracle : Finset String → DataFrame)
    (bs : List (ℚ × List Obj)) : List (ℚ × List Obj) :=
  bs.map fun p => if 95 < |p.1| then (p.1, optimized_sort oracle p.2) else p

theorem optimized_sort_eq (oracle : Finset String → DataFrame)
    (l : List Obj) (h : ¬ l.length ≤ 1) :
    optimized_sort oracle l =
      flattenBuckets (sortBucketsDesc (addToBucket
        (recurseBuckets oracle (buildBuckets oracle
          (l.get ⟨l.length / 2, Nat.div_lt_self (by omega) (by omega)⟩) l))
        0 (l.get ⟨l.length / 2, Nat.div_lt_self (by omega) (by omega)⟩))) := by
  rw [optimized_sort]
  rw [dif_neg h]
  simp only [recurseBuckets, List.map_subtype, List.unattach_attach]

theorem mem_recurseBuckets_of_mem (oracle : Finset String → DataFrame)
    {bs : List (ℚ × List Obj)} {k : ℚ} {b : List Obj} (h : (k, b) ∈ bs) :
    (k, if 95 < |k| then optimized_sort oracle b else b)
      ∈ recurseBuckets oracle bs := by
  have := List.mem_map_of_mem
    (fun p : ℚ × List Obj =>
      if 95 < |p.1| then (p.1, optimized_sort oracle p.2) else p) h
  by_cases hk : 95 < |k|
  · simpa [recurseBuckets, hk] using this
  · simpa [recurseBuckets, hk] using this

theorem of_mem_recurseBuckets {oracle : Finset String → DataFrame}
    {bs : List (ℚ × List Obj)} {k : ℚ} {b₂ : List Obj}
    (h : (k, b₂) ∈ recurseBuckets oracle bs) :
    ∃ b, (k, b) ∈ bs
      ∧ b₂ = if 95 < |k| then optimized_sort oracle b else b := by
  rw [recurseBuckets, List.mem_map] at h
  obtain ⟨⟨k₀, b₀⟩, hmem, hg⟩ := h
  by_cases hk : 95 < |k₀|
  · rw [if_pos hk] at hg
    injection hg with h1 h2
    subst h1
    subst h2
    exact ⟨b₀, hmem, by rw [if_pos hk]⟩
  · rw [if_neg hk] at hg
    injection hg with h1 h2
    subst h1
    subst h2
    exact ⟨b₀, hmem, by rw [if_neg hk]⟩

theorem keysOf_recurseBuckets (oracle : Finset String → DataFrame)
    (bs : List (ℚ × List Obj)) :
    keysOf (recurseBuckets oracle bs) = keysOf bs := by
  rw [keysOf, recurseBuckets, List.map_map, keysOf]
  congr 1
  funext p
  by_cases hk : 95 < |p.1| <;> simp [hk]

/-- Membership preservation: the partial sort never invents an item, and
every input item (object) still occurs in the output. -/
theorem mem_optimized_sort (oracle : Finset String → DataFrame) :
    ∀ (n : ℕ) (l : List Obj), l.length ≤ n →
      ∀ x : Obj, x ∈ optimized_sort oracle l ↔ x ∈ l := by
  intro n
  induction n with
  | zero =>
    intro l hlen x
    have hnil : l = [] := List.length_eq_zero.mp (Nat.le_zero.mp hlen)
    subst hnil
    rw [optimized_sort, dif_pos (by simp)]
  | succ n ih =>
    intro l hlen x
    by_cases hs : l.length ≤ 1
    · rw [optimized_sort, dif_pos hs]
    · rw [optimized_sort_eq oracle l hs]
      have hpivmem : l.get ⟨l.length / 2,
          Nat.div_lt_self (by omega) (by omega)⟩ ∈ l := List.get_mem _ _ _
      constructor
      · intro hx
        obtain ⟨p, hp, hxp⟩ := mem_flattenBuckets.mp hx
        have hpA := (sortBucketsDesc_perm _).mem_iff.mp hp
        obtain ⟨k, b'⟩ := p
        rcases mem_of_mem_addToBucket hpA hxp with ⟨rfl, rfl⟩ | ⟨b'', hb'', hxb⟩
        · exact hpivmem
        · obtain ⟨b, hbB, hshape⟩ := of_mem_recurseBuckets hb''
          have hxb' : x ∈ b := by
            by_cases hk : 95 < |k|
            · rw [hshape, if_pos hk] at hxb
              have hblt : b.length < l.length := bucket_length_lt hbB hpivmem
              exact (ih b (by omega) x).mp hxb
            · rw [hshape, if_neg hk] at hxb
              exact hxb
          have hxflat : x ∈ flattenBuckets (buildBuckets oracle _ l) :=
            mem_flattenBuckets.mpr ⟨(k, b), hbB, hxb'⟩
          have hxfilter := (flattenBuckets_buildBuckets oracle _ l).mem_iff.mp
            hxflat
          exact (List.mem_filter.mp hxfilter).1
      · intro hx
        by_cases hxpiv : x = l.get ⟨l.length / 2,
            Nat.div_lt_self (by omega) (by omega)⟩
        · obtain ⟨b, hb, _⟩ := addToBucket_self
            (recurseBuckets oracle (buildBuckets oracle (l.get ⟨l.length / 2,
              Nat.div_lt_self (by omega) (by omega)⟩) l)) 0
            (l.get ⟨l.length / 2, Nat.div_lt_self (by omega) (by omega)⟩)
          refine mem_flattenBuckets.mpr ⟨(0, b ++ [l.get ⟨l.length / 2,
              Nat.div_lt_self (by omega) (by omega)⟩]), ?_, ?_⟩
          · exact (sortBucketsDesc_perm _).mem_iff.mpr hb
          · exact List.mem_append.mpr (Or.inr (List.mem_singleton.mpr hxpiv))
        · obtain ⟨b, hbB, hxb⟩ := buildBuckets_complete oracle _ l x hx hxpiv
          have hrec := mem_recurseBuckets_of_mem oracle hbB
          have hxb₂ : x ∈ (if 95 < |diffKey oracle (l.get ⟨l.length / 2,
              Nat.div_lt_self (by omega) (by omega)⟩) x| then
              optimized_sort oracle b else b) := by
            by_cases hk : 95 < |diffKey oracle (l.get ⟨l.length / 2,
                Nat.div_lt_self (by omega) (by omega)⟩) x|
            · rw [if_pos hk]
              have hblt : b.length < l.length := bucket_length_lt hbB hpivmem
              exact (ih b (by omega) x).mpr hxb
            · rw [if_neg hk]
              exact hxb
          obtain ⟨b₃, hb₃, hxb₃⟩ := mem_addToBucket_of_mem hrec hxb₂ 0
            (l.get ⟨l.length / 2, Nat.div_lt_self (by omega) (by omega)⟩)
          refine mem_flattenBuckets.mpr ⟨(diffKey oracle (l.get ⟨l.length / 2,
              Nat.div_lt_self (by omega) (by omega)⟩) x, b₃), ?_, hxb₃⟩
          exact (sortBucketsDesc_perm _).mem_iff.mpr hb₃

theorem flattenBuckets_recurseBuckets_perm (oracle : Finset String → DataFrame)
    {bs : List (ℚ × List Obj)}
    (h : ∀ k b, (k, b) ∈ bs → 95 < |k| → optimized_sort oracle b ~ b) :
    flattenBuckets (recurseBuckets oracle bs) ~ flattenBuckets bs := by
  induction bs with
  | nil => exact List.Perm.refl _
  | cons p rest ih =>
    obtain ⟨k, b⟩ := p
    have hrest : ∀ k b, (k, b) ∈ rest → 95 < |k| →
        optimized_sort oracle b ~ b :=
      fun k' b' hmem => h k' b' (List.mem_cons_of_mem _ hmem)
    by_cases hk : 95 < |k|
    · have hcons : recurseBuckets oracle ((k, b) :: rest)
          = (k, optimized_sort oracle b) :: recurseBuckets oracle rest := by
        show (if 95 < |k| then ((k : ℚ), optimized_sort oracle b) else (k, b))
            :: recurseBuckets oracle rest = _
        rw [if_pos hk]
      rw [hcons]
      show optimized_sort oracle b ++ flattenBuckets (recurseBuckets oracle rest)
          ~ b ++ flattenBuckets rest
      exact (h k b (List.mem_cons_self _ _) hk).append (ih hrest)
    · have hcons : recurseBuckets oracle ((k, b) :: rest)
          = (k, b) :: recurseBuckets oracle rest := by
        show (if 95 < |k| then ((k : ℚ), optimized_sort oracle b) else (k, b))
            :: recurseBuckets oracle rest = _
        rw [if_neg hk]
      rw [hcons]
      show b ++ flattenBuckets (recurseBuckets oracle rest)
          ~ b ++ flattenBuckets rest
      exact (List.Perm.refl b).append (ih hrest)

theorem cons_filter_ne_perm {l : List Obj} {a : Obj} (hnd : l.Nodup)
    (ha : a ∈ l) : a :: l.filter (· ≠ a) ~ l := by
  induction l with
  | nil => cases ha
  | cons x xs ih =>
    rcases List.mem_cons.mp ha with rfl | hxs
    · have hxnot : a ∉ xs := (List.nodup_cons.mp hnd).1
      have hself : xs.filter (· ≠ a) = xs := by
        apply List.filter_eq_self.mpr
        intro b hb
        simp only [ne_eq, decide_eq_true_eq]
        intro hcontra
        exact hxnot (hcontra ▸ hb)
      rw [List.filter_cons_of_neg (by simp), hself]
    · have hnx : x ≠ a := fun h => (List.nodup_cons.mp hnd).1 (h ▸ hxs)
      have ihp := ih (List.nodup_cons.mp hnd).2 hxs
      rw [List.filter_cons_of_pos (by simp [hnx])]
      exact (List.Perm.swap x a _).trans (ihp.cons x)

/-- The partial sort permutes its input whenever no object occurs twice in
the list (value-equal duplicates as distinct objects are fine). -/
theorem optimized_sort_perm_aux (oracle : Finset String → DataFrame) :
    ∀ (n : ℕ) (l : List Obj), l.length ≤ n → l.Nodup →
      optimized_sort oracle l ~ l := by
  intro n
  induction n with
  | zero =>
    intro l hlen _
    have hnil : l = [] := List.length_eq_zero.mp (Nat.le_zero.mp hlen)
    subst hnil
    rw [optimized_sort, dif_pos (by simp)]
  | succ n ih =>
    intro l hlen hnd
    by_cases hs : l.length ≤ 1
    · rw [optimized_sort, dif_pos hs]
    · rw [optimized_sort_eq oracle l hs]
      have hpivmem : l.get ⟨l.length / 2,
          Nat.div_lt_self (by omega) (by omega)⟩ ∈ l := List.get_mem _ _ _
      have hflatB : flattenBuckets (buildBuckets oracle (l.get ⟨l.length / 2,
          Nat.div_lt_self (by omega) (by omega)⟩) l)
          ~ l.filter (· ≠ l.get ⟨l.length / 2,
            Nat.div_lt_self (by omega) (by omega)⟩) :=
        flattenBuckets_buildBuckets oracle _ l
      have hfilnd : (l.filter (· ≠ l.get ⟨l.length / 2,
          Nat.div_lt_self (by omega) (by omega)⟩)).Nodup := hnd.filter _
      have hflatnd : (flattenBuckets (buildBuckets oracle (l.get ⟨l.length / 2,
          Nat.div_lt_self (by omega) (by omega)⟩) l)).Nodup :=
        hflatB.symm.nodup hfilnd
      have hbperm : ∀ k b, (k, b) ∈ buildBuckets oracle (l.get ⟨l.length / 2,
          Nat.div_lt_self (by omega) (by omega)⟩) l → 95 < |k| →
          optimized_sort oracle b ~ b := by
        intro k b hmem _
        have hbnd : b.Nodup := hflatnd.sublist (sublist_flattenBuckets hmem)
        have hblt : b.length < l.length := bucket_length_lt hmem hpivmem
        exact ih b (by omega) hbnd
      refine List.Perm.trans
        (flattenBuckets_perm (sortBucketsDesc_perm _)) ?_
      refine List.Perm.trans (flattenBuckets_addToBucket _ 0 _) ?_
      refine List.Perm.trans
        ((flattenBuckets_recurseBuckets_perm oracle hbperm).cons _) ?_
      refine List.Perm.trans (hflatB.cons _) ?_
      exact cons_filter_ne_perm hnd hpivmem

/-- C7 (amended): for every oracle behaviour and every input list in which
no single string object occurs twice (value-equal duplicates as distinct
objects are permitted), `optimized_sort` returns a permutation of its input;
an input with fewer than 2 items is returned as an unchanged copy. -/
theorem optimized_sort_perm (oracle : Finset String → DataFrame)
    (l : List Obj) :
    (l.Nodup → optimized_sort oracle l ~ l) ∧
    (l.length ≤ 1 → optimized_sort oracle l = l) :=
  ⟨fun hnd => optimized_sort_perm_aux oracle l.length l le_rfl hnd,
   fun hs => by rw [optimized_sort, dif_pos hs]⟩

/-- C7 counterexample: when the same string object occurs twice (`val is
pivot` is Python object identity, and both occurrences are the pivot
object), every occurrence is skipped by the bucket loop while the pivot is
re-inserted only once, so the result of `optimized_sort` is *not* a
permutation of the input. -/
theorem optimized_sort_not_perm :
    optimized_sort (fun _ => ⟨[]⟩) [(0, "X"), (0, "X")] = [(0, "X")] ∧
    ¬ (optimized_sort (fun _ => ⟨[]⟩) [(0, "X"), (0, "X")]
        ~ [(0, "X"), (0, "X")]) := by
  have heval : optimized_sort (fun _ => ⟨[]⟩) [(0, "X"), (0, "X")]
      = [(0, "X")] := by
    rw [optimized_sort_eq (fun _ => ⟨[]⟩) [(0, "X"), (0, "X")] (by simp)]
    rfl
  refine ⟨heval, ?_⟩
  rw [heval]
  decide

/-- Witness for the amended C7 at a concrete duplicate-free input. -/
theorem optimized_sort_perm_witness :
    ([(0, "A"), (1, "B"), (2, "C")] : List Obj).Nodup ∧
    optimized_sort (fun _ => ⟨[]⟩) [(0, "A"), (1, "B"), (2, "C")]
      ~ [(0, "A"), (1, "B"), (2, "C")] :=
  ⟨by decide,
    (optimized_sort_perm (fun _ => ⟨[]⟩) [(0, "A"), (1, "B"), (2, "C")]).1
      (by decide)⟩

theorem diffKey_self (oracle : Finset String → DataFrame) (p : Obj) :
    diffKey oracle p p = 0 := by
  simp [diffKey]

/-- Structure of the final bucket sequence around the pivot, for an
abstract pivot known to satisfy the unfolding equation. -/
theorem optimized_sort_placement_general (oracle : Finset String → DataFrame)
    (l : List Obj) (piv : Obj)
    (heq : optimized_sort oracle l
      = flattenBuckets (sortBucketsDesc (addToBucket
          (recurseBuckets oracle (buildBuckets oracle piv l)) 0 piv))) :
    ∃ P zs S,
      optimized_sort oracle l = P ++ zs ++ piv :: S ∧
      (∀ x ∈ zs, diffKey oracle piv x = 0) ∧
      (∀ x ∈ l, diffKey oracle piv x = 100 → x ∈ P) ∧
      (∀ x ∈ l, diffKey oracle piv x = -100 → x ∈ S) := by
  obtain ⟨zs, hzsmem, hzcase⟩ :=
    addToBucket_self (recurseBuckets oracle (buildBuckets oracle piv l)) 0 piv
  have hzs0 : ∀ x ∈ zs, diffKey oracle piv x = 0 := by
    rcases hzcase with rfl | hzR
    · intro x hx; cases hx
    · obtain ⟨b, hbB, hshape⟩ := of_mem_recurseBuckets hzR
      have hzsb : zs = b := by rw [hshape, if_neg (by norm_num)]
      subst hzsb
      exact buildBuckets_key_inv oracle piv l 0 zs hbB
  have hmemF : (0, zs ++ [piv]) ∈ sortBucketsDesc (addToBucket
      (recurseBuckets oracle (buildBuckets oracle piv l)) 0 piv) :=
    (sortBucketsDesc_perm _).mem_iff.mpr hzsmem
  obtain ⟨pre, post, hsplit⟩ := List.append_of_mem hmemF
  have hsorted := sortBucketsDesc_sorted (addToBucket
    (recurseBuckets oracle (buildBuckets oracle piv l)) 0 piv)
  rw [hsplit] at hsorted
  have hpairs := List.pairwise_append.mp hsorted
  have hprepos : ∀ p ∈ pre, (0 : ℚ) ≤ p.1 :=
    fun p hp => hpairs.2.2 p hp _ (List.mem_cons_self _ _)
  have hpostneg : ∀ p ∈ post, p.1 ≤ (0 : ℚ) :=
    fun p hp => (List.pairwise_cons.mp hpairs.2.1).1 p hp
  have hout : optimized_sort oracle l
      = flattenBuckets pre ++ zs ++ piv :: flattenBuckets post := by
    rw [heq, hsplit, flattenBuckets_append]
    show flattenBuckets pre ++ ((zs ++ [piv]) ++ flattenBuckets post) = _
    simp
  refine ⟨flattenBuckets pre, zs, flattenBuckets post, hout, hzs0, ?_, ?_⟩
  · intro x hxl hd
    have hxpiv : x ≠ piv := by
      intro hcontra
      rw [hcontra, diffKey_self] at hd
      norm_num at hd
    obtain ⟨b, hbB, hxb⟩ := buildBuckets_complete oracle piv l x hxl hxpiv
    rw [hd] at hbB
    have hrec := mem_recurseBuckets_of_mem oracle hbB
    have hxb2 : x ∈ (if 95 < |(100 : ℚ)| then optimized_sort oracle b else b) := by
      rw [if_pos (by norm_num)]
      exact (mem_optimized_sort oracle b.length b le_rfl x).mpr hxb
    obtain ⟨b₃, hb₃, hxb₃⟩ := mem_addToBucket_of_mem hrec hxb2 0 piv
    have hmemF3 : ((100 : ℚ), b₃) ∈ sortBucketsDesc (addToBucket
        (recurseBuckets oracle (buildBuckets oracle piv l)) 0 piv) :=
      (sortBucketsDesc_perm _).mem_iff.mpr hb₃
    rw [hsplit] at hmemF3
    rcases List.mem_append.mp hmemF3 with hpre | hmid
    · exact mem_flattenBuckets.mpr ⟨(100, b₃), hpre, hxb₃⟩
    · rcases List.mem_cons.mp hmid with heq0 | hpost
      · injection heq0 with h1 _
        norm_num at h1
      · have := hpostneg _ hpost
        norm_num at this
  · intro x hxl hd
    have hxpiv : x ≠ piv := by
      intro hcontra
      rw [hcontra, diffKey_self] at hd
      norm_num at hd
    obtain ⟨b, hbB, hxb⟩ := buildBuckets_complete oracle piv l x hxl hxpiv
    rw [hd] at hbB
    have hrec := mem_recurseBuckets_of_mem oracle hbB
    have hxb2 : x ∈ (if 95 < |(-100 : ℚ)| then optimized_sort oracle b else b) := by
      rw [if_pos (by norm_num)]
      exact (mem_optimized_sort oracle b.length b le_rfl x).mpr hxb
    obtain ⟨b₃, hb₃, hxb₃⟩ := mem_addToBucket_of_mem hrec hxb2 0 piv
    have hmemF3 : ((-100 : ℚ), b₃) ∈ sortBucketsDesc (addToBucket
        (recurseBuckets oracle (buildBuckets oracle piv l)) 0 piv) :=
      (sortBucketsDesc_perm _).mem_iff.mpr hb₃
    rw [hsplit] at hmemF3
    rcases List.mem_append.mp hmemF3 with hpre | hmid
    · have := hprepos _ hpre
      norm_num at this
    · rcases List.mem_cons.mp hmid with heq0 | hpost
      · injection heq0 with h1 _
        norm_num at h1
      · exact mem_flattenBuckets.mpr ⟨(-100, b₃), hpost, hxb₃⟩

/-- C8: in the sequence returned by a top-level call of `optimized_sort`
(pivot = the item at the middle index), the pivot appears at the end of the
contiguous run of items whose diff-to-pivot is 0 (the run `zs ++ [pivot]`),
every item whose diff-to-pivot is 100 lands strictly before that run, and
every item whose diff-to-pivot is -100 lands strictly after it. -/
theorem optimized_sort_pivot_placement (oracle : Finset String → DataFrame)
    (l : List Obj) (h2 : 2 ≤ l.length) :
    ∃ P zs S,
      optimized_sort oracle l
        = P ++ zs ++ l.get ⟨l.length / 2, by omega⟩ :: S ∧
      (∀ x ∈ zs, diffKey oracle (l.get ⟨l.length / 2, by omega⟩) x = 0) ∧
      (∀ x ∈ l,
        diffKey oracle (l.get ⟨l.length / 2, by omega⟩) x = 100 → x ∈ P) ∧
      (∀ x ∈ l,
        diffKey oracle (l.get ⟨l.length / 2, by omega⟩) x = -100 → x ∈ S) :=
  optimized_sort_placement_general oracle l _
    (optimized_sort_eq oracle l (by omega))

/-- A stub oracle for the pivot-placement witness: relative to the pivot
`"B"`, the item `"A"` diffs by 100 and the item `"C"` by -100. -/
def oraclePlacement : Finset String → DataFrame := fun k =>
  if k = pyFrozenset ["B", "A"] then ⟨[("B", [0]), ("A", [100])]⟩
  else if k = pyFrozenset ["B", "C"] then ⟨[("B", [100]), ("C", [0])]⟩
  else ⟨[]⟩

/-- Witness for C8 at a concrete 3-item input. -/
theorem optimized_sort_pivot_placement_witness :
    2 ≤ ([(0, "A"), (1, "B"), (2, "C")] : List Obj).length ∧
    ∃ P zs S,
      optimized_sort oraclePlacement [(0, "A"), (1, "B"), (2, "C")]
        = P ++ zs ++ ([(0, "A"), (1, "B"), (2, "C")] : List Obj).get
            ⟨([(0, "A"), (1, "B"), (2, "C")] : List Obj).length / 2,
              by decide⟩ :: S ∧
      (∀ x ∈ zs, diffKey oraclePlacement
        (([(0, "A"), (1, "B"), (2, "C")] : List Obj).get
          ⟨([(0, "A"), (1, "B"), (2, "C")] : List Obj).length / 2,
            by decide⟩) x = 0) ∧
      (∀ x ∈ ([(0, "A"), (1, "B"), (2, "C")] : List Obj),
        diffKey oraclePlacement
          (([(0, "A"), (1, "B"), (2, "C")] : List Obj).get
            ⟨([(0, "A"), (1, "B"), (2, "C")] : List Obj).length / 2,
              by decide⟩) x = 100 → x ∈ P) ∧
      (∀ x ∈ ([(0, "A"), (1, "B"), (2, "C")] : List Obj),
        diffKey oraclePlacement
          (([(0, "A"), (1, "B"), (2, "C")] : List Obj).get
            ⟨([(0, "A"), (1, "B"), (2, "C")] : List Obj).length / 2,
              by decide⟩) x = -100 → x ∈ S) :=
  ⟨by decide,
    optimized_sort_pivot_placement oraclePlacement
      [(0, "A"), (1, "B"), (2, "C")] (by decide)⟩
